import Mathlib

/-!
# Verification of the registry ticket manager

A shallow embedding of the `registry_ticket_manager` crate.

* The backing `IndexMap<Identifier, T>` (an insertion-ordered hash map with
  positional access) is modelled as an association list in insertion order:
  keys are pairwise distinct in every state reachable through the public API,
  and lookups return the first (hence only) entry whose key equals the query.
* The `RegistryTicket` trait is modelled as a structure `TicketImpl` bundling
  the two trait methods `from_index` and `to_index`.
* `usize` is modelled as `Nat` (positions only grow by appending, no overflow
  arithmetic occurs in the source).
* Code paths that panic in Rust (`unwrap`, out-of-bounds `Index`) are modelled
  by `Option`, with `none` standing for the panic.
-/

set_option autoImplicit false
set_option linter.unusedSectionVars false
set_option maxRecDepth 4096

namespace RTM

/-- Model of the `RegistryTicket` trait: the two methods `from_index` and
`to_index`. Determinism of `from_index` is automatic (it is a function). -/
structure TicketImpl (Ticket : Type) where
  from_index : Nat → Option Ticket
  to_index : Ticket → Nat

/-- The trait contract of §4.1: `to_index` returns precisely the position the
ticket was constructed from by `from_index`. -/
def TicketImpl.Lawful {Ticket : Type} (ti : TicketImpl Ticket) : Prop :=
  ∀ p t, ti.from_index p = some t → ti.to_index t = p

/-- Model of the impl generated by the `RegistryTicket` derive macro for a
single-field wrapper around a `w`-bit unsigned integer: `from_index` is
`index.try_into().ok().map(Self)` (succeeds exactly when the index fits in
`w` bits) and `to_index` is `self.0 as usize` (the identity, the wrapped
width being at most the width of `usize`). The wrapped value is modelled
as the `Nat` it denotes. -/
def derivedTicketImpl (w : Nat) : TicketImpl Nat where
  from_index := fun p => if p < 2 ^ w then some p else none
  to_index := fun t => t

/-- Model of `RegistryManager<T, Ticket, Identifier>`: the `IndexMap` field as
an association list in insertion order. (`_phantom` carries no data.) -/
structure RegistryManager (T Ticket Identifier : Type) where
  map : List (Identifier × T)
deriving DecidableEq

section Manager

variable {T Ticket Identifier : Type} [DecidableEq Identifier]

/-- Model of `IndexMap::get_full`: the position, stored key and stored value
of the entry whose key equals the query, if any. -/
def get_full (l : List (Identifier × T)) (id : Identifier) :
    Option (Nat × Identifier × T) :=
  match l with
  | [] => none
  | e :: rest =>
    if e.1 = id then some (0, e.1, e.2)
    else (get_full rest id).map (fun r => (r.1 + 1, r.2.1, r.2.2))

/-- Model of `IndexMap::get_index_of`: the position of the entry whose key
equals the query, if any. -/
def get_index_of (l : List (Identifier × T)) (id : Identifier) : Option Nat :=
  match l with
  | [] => none
  | e :: rest =>
    if e.1 = id then some 0 else (get_index_of rest id).map (fun i => i + 1)

/-- Replace the value stored at position `i`, keeping the stored key: the
effect of `indexmap::map::OccupiedEntry::insert` on the map contents. -/
def replaceAt (l : List (Identifier × T)) (i : Nat) (v : T) :
    List (Identifier × T) :=
  match l, i with
  | [], _ => []
  | e :: rest, 0 => (e.1, v) :: rest
  | e :: rest, i + 1 => e :: replaceAt rest i v

namespace RegistryManager

/-- `RegistryManager::new`. -/
def new : RegistryManager T Ticket Identifier := ⟨[]⟩

/-- `RegistryManager::len`. -/
def len (m : RegistryManager T Ticket Identifier) : Nat :=
  m.map.length

/-- `RegistryManager::is_empty`. -/
def is_empty (m : RegistryManager T Ticket Identifier) : Bool :=
  m.map.isEmpty

/-- `RegistryManager::can_insert`: `Ticket::from_index(self.len()).is_some()`. -/
def can_insert (ti : TicketImpl Ticket) (m : RegistryManager T Ticket Identifier) :
    Bool :=
  (ti.from_index m.len).isSome

/-- `RegistryManager::contains_id`: `self.map.contains_key(id)`. -/
def contains_id (m : RegistryManager T Ticket Identifier) (id : Identifier) :
    Bool :=
  (get_full m.map id).isSome

/-- `RegistryManager::insert`. The source first obtains `self.map.entry(id)`
(whose `index()` is the entry's existing position when occupied and `len()`
when vacant), then converts that position to a ticket with `?` (on failure
returning `None` with the map untouched), and only then mutates: an occupied
entry has its value overwritten (returning the old value), a vacant entry is
appended. Result: the Rust return value paired with the post-call state. -/
def insert (ti : TicketImpl Ticket) (m : RegistryManager T Ticket Identifier)
    (id : Identifier) (v : T) :
    Option (Ticket × Option T) × RegistryManager T Ticket Identifier :=
  let idx := match get_full m.map id with
    | some r => r.1
    | none => m.len
  match ti.from_index idx with
  | none => (none, m)
  | some t =>
    match get_full m.map id with
    | some r => (some (t, some r.2.2), ⟨replaceAt m.map r.1 v⟩)
    | none => (some (t, none), ⟨m.map ++ [(id, v)]⟩)

/-- `RegistryManager::get_id`: `self.map.get(id)`. -/
def get_id (m : RegistryManager T Ticket Identifier) (id : Identifier) :
    Option T :=
  (get_full m.map id).map (fun r => r.2.2)

/-- `RegistryManager::get_id_full`: `self.map.get_full(id)?` followed by
`Ticket::from_index(idx)?`. -/
def get_id_full (ti : TicketImpl Ticket) (m : RegistryManager T Ticket Identifier)
    (id : Identifier) : Option (Ticket × Identifier × T) :=
  (get_full m.map id).bind
    (fun r => (ti.from_index r.1).map (fun t => (t, r.2.1, r.2.2)))

/-- `RegistryManager::get_id_full_mut`: identical index and conversion logic
to `get_id_full` (the source bodies differ only in borrow mutability, which a
pure model cannot distinguish). -/
def get_id_full_mut (ti : TicketImpl Ticket)
    (m : RegistryManager T Ticket Identifier) (id : Identifier) :
    Option (Ticket × Identifier × T) :=
  (get_full m.map id).bind
    (fun r => (ti.from_index r.1).map (fun t => (t, r.2.1, r.2.2)))

/-- `RegistryManager::get_ticket`: `&self.map[ticket.to_index()]`; the
out-of-bounds panic is modelled as `none`. -/
def get_ticket (ti : TicketImpl Ticket) (m : RegistryManager T Ticket Identifier)
    (t : Ticket) : Option T :=
  (m.map[ti.to_index t]?).map (fun e => e.2)

/-- `RegistryManager::get_ticket_full`:
`self.map.get_index(ticket.to_index()).unwrap()`; the `unwrap` panic is
modelled as `none`. -/
def get_ticket_full (ti : TicketImpl Ticket)
    (m : RegistryManager T Ticket Identifier) (t : Ticket) :
    Option (Identifier × T) :=
  m.map[ti.to_index t]?

/-- `RegistryManager::get_ticket_of`:
`self.map.get_index_of(id).and_then(Ticket::from_index)`. -/
def get_ticket_of (ti : TicketImpl Ticket)
    (m : RegistryManager T Ticket Identifier) (id : Identifier) :
    Option Ticket :=
  (get_index_of m.map id).bind ti.from_index

/-- A sequence of `insert` calls, each applied to the state left by the
previous one (a failed call leaves the state unchanged, as in the source). -/
def insertAll (ti : TicketImpl Ticket) (m : RegistryManager T Ticket Identifier)
    (ops : List (Identifier × T)) : RegistryManager T Ticket Identifier :=
  ops.foldl (fun acc e => (insert ti acc e.1 e.2).2) m

end RegistryManager

/-- The states reachable from `new` through (successful or failed) `insert`
calls; a failed `insert` leaves the state unchanged, so only successful calls
matter. -/
inductive Reachable (ti : TicketImpl Ticket) :
    RegistryManager T Ticket Identifier → Prop where
  | new : Reachable ti RegistryManager.new
  | insert (m : RegistryManager T Ticket Identifier) (id : Identifier) (v : T)
      (r : Ticket × Option T) (m' : RegistryManager T Ticket Identifier) :
      Reachable ti m → RegistryManager.insert ti m id v = (some r, m') →
      Reachable ti m'

/-- Every occupied position of `m` is representable by the ticket type. -/
def ValidPositions (ti : TicketImpl Ticket)
    (m : RegistryManager T Ticket Identifier) : Prop :=
  ∀ p, p < m.len → (ti.from_index p).isSome

end Manager

/-! ## Iteration adapters

`Iter<'a, T, Ticket, Identifier>` wraps
`std::iter::Enumerate<indexmap::map::Iter<'a, Identifier, T>>`. The underlying
indexmap iterator walks the remaining entries in insertion order and is
double-ended and exact-size; `Enumerate` pairs each front element with a
running counter `count` (incremented on each front yield) and each back
element with `count + remaining_len_after_the_yield`. We model the combined
state as the list of remaining entries plus the front counter. `IterMut` has
textually identical method bodies (only borrow mutability differs), so the
one embedding covers both adapters. -/

/-- State of `Enumerate<indexmap::map::Iter>`: the entries not yet yielded (in
order) and the enumeration index of the next front element (`Enumerate`'s
`count` field). -/
structure IterState (T Identifier : Type) where
  elems : List (Identifier × T)
  front : Nat
deriving DecidableEq

/-- Outcome of one iterator-advancing call: an item, exhaustion (Rust `None`),
or a panic (a failed `unwrap` inside `map_next`). -/
inductive StepRes (α : Type) where
  | yield : α → StepRes α
  | done : StepRes α
  | panic : StepRes α
deriving DecidableEq

section Iterators

variable {T Ticket Identifier : Type}

/-- `map_next`: converts the enumerate pair `(idx, (id, val))` into
`(Ticket::from_index(idx).unwrap(), id, val)`; the `unwrap` panic is modelled
as `none`. -/
def map_next (ti : TicketImpl Ticket) (input : Nat × Identifier × T) :
    Option (Ticket × Identifier × T) :=
  (ti.from_index input.1).map (fun t => (t, input.2.1, input.2.2))

namespace Iter

/-- `Iter::next`: `self.iter.next().map(map_next)`. The underlying enumerate
yields the head entry paired with `count`, incrementing `count`. -/
def next (ti : TicketImpl Ticket) (s : IterState T Identifier) :
    StepRes (Ticket × Identifier × T) × IterState T Identifier :=
  match s.elems with
  | [] => (.done, s)
  | e :: rest =>
    match map_next ti (s.front, e) with
    | none => (.panic, s)
    | some a => (.yield a, ⟨rest, s.front + 1⟩)

/-- `Iter::next_back` (`DoubleEndedIterator`):
`self.iter.next_back().map(map_next)`. `Enumerate::next_back` yields the last
remaining entry paired with `count + remaining_len_after`, leaving `count`
unchanged. -/
def next_back (ti : TicketImpl Ticket) (s : IterState T Identifier) :
    StepRes (Ticket × Identifier × T) × IterState T Identifier :=
  match s.elems.getLast? with
  | none => (.done, s)
  | some e =>
    match map_next ti (s.front + (s.elems.length - 1), e) with
    | none => (.panic, s)
    | some a => (.yield a, ⟨s.elems.dropLast, s.front⟩)

/-- `Iter::nth`: `self.iter.nth(n).map(map_next)`. `Enumerate::nth` advances
the underlying iterator past `n` entries; on a yield it sets
`count := count + n + 1`, and when the skip exhausts the iterator it returns
`None` leaving `count` unchanged (the underlying iterator is fully
consumed). Only the yielded entry passes through `map_next`. -/
def nth (ti : TicketImpl Ticket) (s : IterState T Identifier) (n : Nat) :
    StepRes (Ticket × Identifier × T) × IterState T Identifier :=
  match s.elems[n]? with
  | none => (.done, ⟨[], s.front⟩)
  | some e =>
    match map_next ti (s.front + n, e) with
    | none => (.panic, ⟨s.elems.drop (n + 1), s.front + n + 1⟩)
    | some a => (.yield a, ⟨s.elems.drop (n + 1), s.front + n + 1⟩)

/-- `Iter::nth_back`: `self.iter.nth_back(n).map(map_next)`.
`Enumerate::nth_back` drops `n` entries from the back and yields the next one
paired with `count + remaining_len_after`, leaving `count` unchanged; an
overshooting skip consumes everything and returns `None`. -/
def nth_back (ti : TicketImpl Ticket) (s : IterState T Identifier) (n : Nat) :
    StepRes (Ticket × Identifier × T) × IterState T Identifier :=
  match s.elems[s.elems.length - 1 - n]? with
  | none => (.done, ⟨[], s.front⟩)
  | some e =>
    if n < s.elems.length then
      match map_next ti (s.front + (s.elems.length - 1 - n), e) with
      | none => (.panic, ⟨s.elems.take (s.elems.length - 1 - n), s.front⟩)
      | some a => (.yield a, ⟨s.elems.take (s.elems.length - 1 - n), s.front⟩)
    else (.done, ⟨[], s.front⟩)

end Iter

/-- `n` successive `Iter::next` calls, discarding the yielded items. -/
def nextN (ti : TicketImpl Ticket) :
    Nat → IterState T Identifier → IterState T Identifier
  | 0, s => s
  | n + 1, s => nextN ti n (Iter.next ti s).2

/-- `n` successive `Iter::next_back` calls, discarding the yielded items. -/
def nextBackN (ti : TicketImpl Ticket) :
    Nat → IterState T Identifier → IterState T Identifier
  | 0, s => s
  | n + 1, s => nextBackN ti n (Iter.next_back ti s).2

/-- Forward collection (`self.iter.map(map_next).collect()`, equivalently
repeated `next`): the list of all items in yield order, or `none` if any
`map_next` panics. Arguments are the iterator state's two fields. -/
def collectFwdAux (ti : TicketImpl Ticket) :
    List (Identifier × T) → Nat → Option (List (Ticket × Identifier × T))
  | [], _ => some []
  | e :: rest, front =>
    match map_next ti (front, e) with
    | none => none
    | some a => (collectFwdAux ti rest (front + 1)).map (fun l => a :: l)

/-- Backward collection (repeated `next_back`, as in `.rev().collect()`): the
argument list is the remaining entries **reversed**, so its head is the entry
yielded first (enumeration index `front + rest.length`). -/
def collectBwdAux (ti : TicketImpl Ticket) :
    List (Identifier × T) → Nat → Option (List (Ticket × Identifier × T))
  | [], _ => some []
  | e :: rest, front =>
    match map_next ti (front + rest.length, e) with
    | none => none
    | some a => (collectBwdAux ti rest front).map (fun l => a :: l)

/-- `RegistryManager::iter` / `iter_mut`: a fresh adapter over all entries,
with the enumerate counter at `0`. -/
def iterOf {Ticket : Type} (m : RegistryManager T Ticket Identifier) :
    IterState T Identifier :=
  ⟨m.map, 0⟩

end Iterators

/-! ## Helper lemmas about the map model -/

section MapLemmas

variable {T Ticket Identifier : Type} [DecidableEq Identifier]

theorem get_full_eq_some {l : List (Identifier × T)} {id : Identifier}
    {i : Nat} {k : Identifier} {v : T} (h : get_full l id = some (i, k, v)) :
    k = id ∧ l[i]? = some (id, v) := by
  induction l generalizing i with
  | nil => simp [get_full] at h
  | cons e rest ih =>
    by_cases he : e.1 = id
    · simp only [get_full, if_pos he, Option.some.injEq, Prod.mk.injEq] at h
      obtain ⟨hi, hk, hv⟩ := h
      subst hi hk hv
      exact ⟨he, by simp [← he]⟩
    · simp only [get_full, if_neg he] at h
      cases hg : get_full rest id with
      | none => rw [hg] at h; simp [Option.map] at h
      | some r =>
        obtain ⟨i2, k2, v2⟩ := r
        rw [hg] at h
        simp only [Option.map_some', Option.some.injEq, Prod.mk.injEq] at h
        obtain ⟨hi, hk, hv⟩ := h
        subst hk hv
        obtain ⟨h1, h2⟩ := ih hg
        subst hi
        exact ⟨h1, by simpa using h2⟩

theorem get_full_eq_none_iff (l : List (Identifier × T)) (id : Identifier) :
    get_full l id = none ↔ ∀ e ∈ l, e.1 ≠ id := by
  induction l with
  | nil => simp [get_full]
  | cons e rest ih =>
    by_cases he : e.1 = id
    · simp [get_full, he]
    · simp [get_full, he, Option.map_eq_none', ih]

theorem get_index_of_eq_get_full (l : List (Identifier × T)) (id : Identifier) :
    get_index_of l id = (get_full l id).map (fun r => r.1) := by
  induction l with
  | nil => simp [get_index_of, get_full]
  | cons e rest ih =>
    by_cases he : e.1 = id
    · simp [get_index_of, get_full, he]
    · simp only [get_index_of, get_full, if_neg he, ih]
      cases get_full rest id <;> simp

theorem length_replaceAt (l : List (Identifier × T)) (i : Nat) (v : T) :
    (replaceAt l i v).length = l.length := by
  induction l generalizing i with
  | nil => simp [replaceAt]
  | cons e rest ih =>
    cases i with
    | zero => simp [replaceAt]
    | succ j => simp [replaceAt, ih]

theorem getElem?_replaceAt_self {l : List (Identifier × T)} {i : Nat}
    {k : Identifier} {w : T} (v : T) (h : l[i]? = some (k, w)) :
    (replaceAt l i v)[i]? = some (k, v) := by
  induction l generalizing i with
  | nil => simp at h
  | cons e rest ih =>
    cases i with
    | zero => simp_all [replaceAt]
    | succ j =>
      simp only [List.getElem?_cons_succ] at h
      simpa [replaceAt] using ih h

theorem getElem?_replaceAt_ne (l : List (Identifier × T)) (i : Nat) (v : T)
    (j : Nat) (h : j ≠ i) : (replaceAt l i v)[j]? = l[j]? := by
  induction l generalizing i j with
  | nil => simp [replaceAt]
  | cons e rest ih =>
    cases i with
    | zero =>
      cases j with
      | zero => exact absurd rfl h
      | succ j2 => simp [replaceAt]
    | succ i2 =>
      cases j with
      | zero => simp [replaceAt]
      | succ j2 => simpa [replaceAt] using ih i2 j2 (by omega)

theorem get_index_of_replaceAt (l : List (Identifier × T)) (i : Nat) (v : T)
    (id : Identifier) : get_index_of (replaceAt l i v) id = get_index_of l id := by
  induction l generalizing i with
  | nil => simp [replaceAt]
  | cons e rest ih =>
    cases i with
    | zero => simp [replaceAt, get_index_of]
    | succ j => simp [replaceAt, get_index_of, ih]

theorem get_index_of_append_ne (l : List (Identifier × T)) {id id2 : Identifier}
    (v2 : T) (h : id2 ≠ id) :
    get_index_of (l ++ [(id2, v2)]) id = get_index_of l id := by
  induction l with
  | nil => simp [get_index_of, h]
  | cons e rest ih => simp [get_index_of, ih]

theorem get_index_of_append_self (l : List (Identifier × T)) (id : Identifier)
    (v : T) (h : get_full l id = none) :
    get_index_of (l ++ [(id, v)]) id = some l.length := by
  induction l with
  | nil => simp [get_index_of]
  | cons e rest ih =>
    have hall := (get_full_eq_none_iff (e :: rest) id).mp h
    have he : e.1 ≠ id := hall e (by simp)
    have hr : get_full rest id = none :=
      (get_full_eq_none_iff rest id).mpr
        (fun x hx => hall x (List.mem_cons_of_mem e hx))
    simp [get_index_of, he, ih hr]

/-- Inversion of a successful `insert`. -/
theorem insert_eq_some {ti : TicketImpl Ticket}
    {m : RegistryManager T Ticket Identifier} {id : Identifier} {v : T}
    {t : Ticket} {old : Option T} {m' : RegistryManager T Ticket Identifier}
    (h : RegistryManager.insert ti m id v = (some (t, old), m')) :
    (∃ p k w, get_full m.map id = some (p, k, w) ∧ ti.from_index p = some t ∧
      old = some w ∧ m'.map = replaceAt m.map p v) ∨
    (get_full m.map id = none ∧ ti.from_index m.len = some t ∧ old = none ∧
      m'.map = m.map ++ [(id, v)]) := by
  cases hg : get_full m.map id with
  | none =>
    cases hf : ti.from_index m.len with
    | none => simp [RegistryManager.insert, hg, hf] at h
    | some t2 =>
      simp only [RegistryManager.insert, hg, hf, Prod.mk.injEq,
        Option.some.injEq] at h
      obtain ⟨⟨ht, ho⟩, hm⟩ := h
      exact Or.inr ⟨rfl, by rw [ht], ho.symm, by rw [← hm]⟩

  | some r =>
    obtain ⟨p, k, w⟩ := r
    cases hf : ti.from_index p with
    | none => simp [RegistryManager.insert, hg, hf] at h
    | some t2 =>
      simp only [RegistryManager.insert, hg, hf, Prod.mk.injEq,
        Option.some.injEq] at h
      obtain ⟨⟨ht, ho⟩, hm⟩ := h
      exact Or.inl ⟨p, k, w, rfl, by rw [hf, ht], ho.symm, by rw [← hm]⟩

theorem derivedTicketImpl_lawful (w : Nat) : (derivedTicketImpl w).Lawful := by
  intro p t h
  simp only [derivedTicketImpl] at h
  split at h
  · cases h; rfl
  · cases h

theorem insert_snd_of_fail {ti : TicketImpl Ticket}
    {m : RegistryManager T Ticket Identifier} {id : Identifier} {v : T}
    (h : (RegistryManager.insert ti m id v).1 = none) :
    (RegistryManager.insert ti m id v).2 = m := by
  cases hg : get_full m.map id with
  | none =>
    cases hf : ti.from_index m.len <;>
      simp [RegistryManager.insert, hg, hf] at h ⊢
  | some r =>
    cases hf : ti.from_index r.1 <;>
      simp [RegistryManager.insert, hg, hf] at h ⊢

theorem insert_fst_eq_none_iff (ti : TicketImpl Ticket)
    (m : RegistryManager T Ticket Identifier) (id : Identifier) (v : T) :
    (RegistryManager.insert ti m id v).1 = none ↔
      ti.from_index ((get_index_of m.map id).getD m.len) = none := by
  rw [get_index_of_eq_get_full]
  cases hg : get_full m.map id with
  | none =>
    cases hf : ti.from_index m.len <;>
      simp [RegistryManager.insert, hg, hf]
  | some r =>
    cases hf : ti.from_index r.1 <;>
      simp [RegistryManager.insert, hg, hf]

theorem reachable_validPositions {ti : TicketImpl Ticket}
    {m : RegistryManager T Ticket Identifier} (h : Reachable ti m) :
    ValidPositions ti m := by
  induction h with
  | new =>
    intro p hp
    simp [RegistryManager.new, RegistryManager.len] at hp
  | insert m id v r m' hr heq ih =>
    obtain ⟨t, old⟩ := r
    rcases insert_eq_some heq with ⟨p, k, w, hg, hf, ho, hm⟩ | ⟨hg, hf, ho, hm⟩
    · intro q hq
      have hlen : m'.len = m.len := by
        simp [RegistryManager.len, hm, length_replaceAt]
      exact ih q (by omega)
    · intro q hq
      have hlen : m'.len = m.len + 1 := by simp [RegistryManager.len, hm]
      by_cases hql : q < m.len
      · exact ih q hql
      · have hq2 : q = m.len := by omega
        subst hq2
        simp [hf]

theorem get_ticket_of_insert_self {ti : TicketImpl Ticket}
    {m : RegistryManager T Ticket Identifier} {id : Identifier} {v : T}
    {t : Ticket} {old : Option T} {m' : RegistryManager T Ticket Identifier}
    (heq : RegistryManager.insert ti m id v = (some (t, old), m')) :
    RegistryManager.get_ticket_of ti m' id = some t := by
  rcases insert_eq_some heq with ⟨p, k, w, hg, hf, ho, hm⟩ | ⟨hg, hf, ho, hm⟩
  · unfold RegistryManager.get_ticket_of
    rw [hm, get_index_of_replaceAt, get_index_of_eq_get_full, hg]
    simpa using hf
  · unfold RegistryManager.get_ticket_of
    rw [hm, get_index_of_append_self m.map id v hg]
    simpa using hf

theorem get_ticket_of_insert_other (ti : TicketImpl Ticket)
    (m : RegistryManager T Ticket Identifier) (id2 : Identifier) (v2 : T)
    (id : Identifier) (h : id2 ≠ id) :
    RegistryManager.get_ticket_of ti (RegistryManager.insert ti m id2 v2).2 id
      = RegistryManager.get_ticket_of ti m id := by
  unfold RegistryManager.get_ticket_of
  have hs : get_index_of ((RegistryManager.insert ti m id2 v2).2).map id
      = get_index_of m.map id := by
    cases hg : get_full m.map id2 with
    | none =>
      cases hf : ti.from_index m.len with
      | none => simp [RegistryManager.insert, hg, hf]
      | some t =>
        simp [RegistryManager.insert, hg, hf,
          get_index_of_append_ne m.map v2 h]
    | some r =>
      cases hf : ti.from_index r.1 with
      | none => simp [RegistryManager.insert, hg, hf]
      | some t =>
        simp [RegistryManager.insert, hg, hf, get_index_of_replaceAt]
  rw [hs]

theorem get_ticket_of_insertAll_other (ti : TicketImpl Ticket)
    (m : RegistryManager T Ticket Identifier)
    (ops : List (Identifier × T)) (id : Identifier)
    (h : ∀ e ∈ ops, e.1 ≠ id) :
    RegistryManager.get_ticket_of ti (RegistryManager.insertAll ti m ops) id
      = RegistryManager.get_ticket_of ti m id := by
  induction ops generalizing m with
  | nil => rfl
  | cons e rest ih =>
    have h1 : e.1 ≠ id := h e (by simp)
    have h2 := ih (RegistryManager.insert ti m e.1 e.2).2
      (fun x hx => h x (List.mem_cons_of_mem e hx))
    have h3 := get_ticket_of_insert_other ti m e.1 e.2 id h1
    show RegistryManager.get_ticket_of ti
      (RegistryManager.insertAll ti (RegistryManager.insert ti m e.1 e.2).2 rest) id
      = RegistryManager.get_ticket_of ti m id
    rw [h2, h3]

end MapLemmas

/-! ## Helper lemmas about the iteration adapters -/

section IterLemmas

variable {T Ticket Identifier : Type}

theorem collectFwdAux_spec (ti : TicketImpl Ticket)
    (l : List (Identifier × T)) (front : Nat)
    (hv : ∀ i, i < l.length → (ti.from_index (front + i)).isSome) :
    ∃ L, collectFwdAux ti l front = some L ∧ L.length = l.length ∧
      ∀ i, i < l.length → ∃ t3 k3 v3, L[i]? = some (t3, k3, v3) ∧
        l[i]? = some (k3, v3) ∧ ti.from_index (front + i) = some t3 := by
  induction l generalizing front with
  | nil => exact ⟨[], rfl, rfl, by simp⟩
  | cons e rest ih =>
    obtain ⟨t0, ht0⟩ := Option.isSome_iff_exists.mp (hv 0 (by simp))
    have hv2 : ∀ i, i < rest.length → (ti.from_index (front + 1 + i)).isSome := by
      intro i hi
      have := hv (i + 1) (by simp; omega)
      rwa [show front + (i + 1) = front + 1 + i by omega] at this
    obtain ⟨L2, hL2, hlen2, hspec2⟩ := ih (front + 1) hv2
    have ht0f : ti.from_index front = some t0 := by simpa using ht0
    refine ⟨(t0, e.1, e.2) :: L2, ?_, by simp [hlen2], ?_⟩
    · simp [collectFwdAux, map_next, ht0f, hL2]
    · intro i hi
      cases i with
      | zero => exact ⟨t0, e.1, e.2, by simp, by simp, by simpa using ht0⟩
      | succ j =>
        obtain ⟨t3, k3, v3, h1, h2, h3⟩ := hspec2 j (by simpa using hi)
        exact ⟨t3, k3, v3, by simpa using h1, by simpa using h2,
          by rwa [show front + (j + 1) = front + 1 + j by omega]⟩

theorem collectFwdAux_cons (ti : TicketImpl Ticket) (e : Identifier × T)
    (rest : List (Identifier × T)) (front : Nat) :
    collectFwdAux ti (e :: rest) front
      = match map_next ti (front, e) with
        | none => none
        | some x => (collectFwdAux ti rest (front + 1)).map (fun l => x :: l) :=
  rfl

theorem collectBwdAux_cons (ti : TicketImpl Ticket) (e : Identifier × T)
    (rest : List (Identifier × T)) (front : Nat) :
    collectBwdAux ti (e :: rest) front
      = match map_next ti (front + rest.length, e) with
        | none => none
        | some x => (collectBwdAux ti rest front).map (fun l => x :: l) :=
  rfl

theorem collectBwdAux_append (ti : TicketImpl Ticket)
    (r : List (Identifier × T)) (a : Identifier × T) (front : Nat) :
    collectBwdAux ti (r ++ [a]) front
      = (collectBwdAux ti r (front + 1)).bind
          (fun L => (map_next ti (front, a)).map (fun x => L ++ [x])) := by
  induction r generalizing front with
  | nil =>
    cases hm : map_next ti (front, a) <;>
      simp [collectBwdAux, hm]
  | cons e r2 ih =>
    rw [List.cons_append, collectBwdAux_cons, collectBwdAux_cons]
    rw [show front + (r2 ++ [a]).length = front + 1 + r2.length by simp; omega]
    rw [ih]
    cases hm : map_next ti (front + 1 + r2.length, e) <;>
      cases hc : collectBwdAux ti r2 (front + 1) <;>
        cases hma : map_next ti (front, a) <;>
          simp [hm, hc, hma]

theorem collectBwdAux_reverse (ti : TicketImpl Ticket)
    (l : List (Identifier × T)) (front : Nat) :
    collectBwdAux ti l.reverse front
      = (collectFwdAux ti l front).map List.reverse := by
  induction l generalizing front with
  | nil => simp [collectFwdAux, collectBwdAux]
  | cons a l2 ih =>
    rw [List.reverse_cons, collectBwdAux_append, ih]
    cases hm : map_next ti (front, a) <;>
      cases hc : collectFwdAux ti l2 (front + 1) <;>
        simp [collectFwdAux, hm, hc]

theorem nextN_exhausted (ti : TicketImpl Ticket) (n fr : Nat) :
    nextN ti n (⟨[], fr⟩ : IterState T Identifier) = ⟨[], fr⟩ := by
  induction n with
  | zero => rfl
  | succ k ih => simpa [nextN, Iter.next] using ih

theorem nextN_eq_drop (ti : TicketImpl Ticket) (k : Nat)
    (s : IterState T Identifier) (hk : k ≤ s.elems.length)
    (hv : ∀ i, i < k → (ti.from_index (s.front + i)).isSome) :
    nextN ti k s = ⟨s.elems.drop k, s.front + k⟩ := by
  induction k generalizing s with
  | zero => cases s; simp [nextN]
  | succ k2 ih =>
    obtain ⟨elems, front⟩ := s
    cases elems with
    | nil => simp at hk
    | cons e rest =>
      obtain ⟨t0, ht0⟩ := Option.isSome_iff_exists.mp
        (by simpa using hv 0 (by omega))
      have hstep : Iter.next ti (⟨e :: rest, front⟩ : IterState T Identifier)
          = (.yield (t0, e.1, e.2), ⟨rest, front + 1⟩) := by
        simp [Iter.next, map_next, ht0]
      have hrec := ih (⟨rest, front + 1⟩ : IterState T Identifier)
        (by simpa using hk)
        (by
          intro i hi
          have := hv (i + 1) (by omega)
          simpa [show front + (i + 1) = front + 1 + i by omega] using this)
      simp only [nextN, hstep, hrec]
      simp [show front + 1 + k2 = front + (k2 + 1) by omega]

theorem nextBackN_exhausted (ti : TicketImpl Ticket) (n fr : Nat) :
    nextBackN ti n (⟨[], fr⟩ : IterState T Identifier) = ⟨[], fr⟩ := by
  induction n with
  | zero => rfl
  | succ k ih => simpa [nextBackN, Iter.next_back] using ih

theorem nextBackN_eq_take (ti : TicketImpl Ticket) (k : Nat)
    (s : IterState T Identifier) (hk : k ≤ s.elems.length)
    (hv : ∀ i, i < s.elems.length → (ti.from_index (s.front + i)).isSome) :
    nextBackN ti k s = ⟨s.elems.take (s.elems.length - k), s.front⟩ := by
  induction k generalizing s with
  | zero => cases s; simp [nextBackN, List.take_length]
  | succ k2 ih =>
    obtain ⟨elems, front⟩ := s
    dsimp only at hk hv ⊢
    have hne : elems ≠ [] := by
      intro hc; rw [hc] at hk; simp at hk
    have hlast : (ti.from_index (front + (elems.length - 1))).isSome := by
      have hp : 0 < elems.length := List.length_pos.mpr hne
      exact hv (elems.length - 1) (by omega)
    obtain ⟨t0, ht0⟩ := Option.isSome_iff_exists.mp hlast
    have hstep : Iter.next_back ti (⟨elems, front⟩ : IterState T Identifier)
        = (.yield (t0, (elems.getLast hne).1, (elems.getLast hne).2),
            ⟨elems.dropLast, front⟩) := by
      simp [Iter.next_back, List.getLast?_eq_getLast elems hne, map_next, ht0]
    have hrec := ih (⟨elems.dropLast, front⟩ : IterState T Identifier)
      (by
        dsimp only
        rw [List.length_dropLast]
        omega)
      (by
        intro i hi
        dsimp only at hi ⊢
        rw [List.length_dropLast] at hi
        exact hv i (by omega))
    simp only [nextBackN, hstep, hrec]
    congr 1
    rw [List.dropLast_eq_take elems, List.take_take]
    congr 1
    rw [List.length_take, Nat.min_eq_left (by omega), Nat.min_eq_left (by omega)]
    omega

theorem nextN_add (ti : TicketImpl Ticket) (a b : Nat)
    (s : IterState T Identifier) :
    nextN ti (a + b) s = nextN ti b (nextN ti a s) := by
  induction a generalizing s with
  | zero => rw [Nat.zero_add]; rfl
  | succ a2 ih =>
    rw [show a2 + 1 + b = (a2 + b) + 1 by omega]
    exact ih (Iter.next ti s).2

theorem nextBackN_add (ti : TicketImpl Ticket) (a b : Nat)
    (s : IterState T Identifier) :
    nextBackN ti (a + b) s = nextBackN ti b (nextBackN ti a s) := by
  induction a generalizing s with
  | zero => rw [Nat.zero_add]; rfl
  | succ a2 ih =>
    rw [show a2 + 1 + b = (a2 + b) + 1 by omega]
    exact ih (Iter.next_back ti s).2

end IterLemmas

/-! ## Concrete instances used by the witnesses

`tiW` models `struct Ticket(u16)` with the derived impl; `tiSmall` models a
wrapper around a 1-bit unsigned integer (exactly two representable tickets,
0 and 1). -/

/-- A 16-bit derived ticket implementation (as in the crate examples). -/
def tiW : TicketImpl Nat := derivedTicketImpl 16

/-- A 1-bit derived ticket implementation: only positions 0 and 1 fit. -/
def tiSmall : TicketImpl Nat := derivedTicketImpl 1

/-- The manager obtained by inserting cat→10, dog→20, cow→30 into an empty
manager (the spec scenario, with numeric stand-ins for the animal values). -/
def m3 : RegistryManager Nat Nat String :=
  (RegistryManager.insert tiW
    ((RegistryManager.insert tiW
      ((RegistryManager.insert tiW RegistryManager.new "cat" 10).2)
      "dog" 20).2)
    "cow" 30).2

/-- The state of `m3` after re-inserting dog→99. -/
def m3b : RegistryManager Nat Nat String :=
  ⟨[("cat", 10), ("dog", 99), ("cow", 30)]⟩

/-- A manager over the 1-bit ticket type holding two entries (positions 0
and 1), so that its ticket type is exhausted. -/
def mSmall : RegistryManager Nat Nat String :=
  (RegistryManager.insert tiSmall
    ((RegistryManager.insert tiSmall RegistryManager.new "a" 1).2)
    "b" 2).2

/-! ## The claims -/

/-- C1: for every successful `insert(id, value)`: if an entry with an
identifier equal to `id` exists at position `p`, the stored value at `p` is
replaced by `value` (key and all other entries untouched), the call returns
the ticket encoding `p` — the manager's existing ticket for `id`, hence by
determinism of `from_index` the ticket the original insertion returned —
together with the previously stored value, and `len()` is unchanged;
otherwise `value` is appended at position `len()`, the call returns a fresh
ticket encoding that position with no replaced value, and `len()` grows by
one. -/
theorem C1_insert_upsert {T Ticket Identifier : Type} [DecidableEq Identifier]
    (ti : TicketImpl Ticket) (hl : ti.Lawful)
    (m : RegistryManager T Ticket Identifier) (id : Identifier) (v : T)
    (t : Ticket) (old : Option T) (m' : RegistryManager T Ticket Identifier)
    (h : RegistryManager.insert ti m id v = (some (t, old), m')) :
    (∀ p, get_index_of m.map id = some p →
      ti.to_index t = p ∧
      RegistryManager.get_ticket_of ti m id = some t ∧
      (∃ w, m.map[p]? = some (id, w) ∧ old = some w ∧
        m'.map[p]? = some (id, v)) ∧
      (∀ q, q ≠ p → m'.map[q]? = m.map[q]?) ∧
      m'.len = m.len) ∧
    (get_index_of m.map id = none →
      ti.to_index t = m.len ∧ old = none ∧
      m'.map[m.len]? = some (id, v) ∧
      (∀ q, q < m.len → m'.map[q]? = m.map[q]?) ∧
      m'.len = m.len + 1) := by
  rcases insert_eq_some h with ⟨p0, k, w, hg, hf, ho, hm⟩ | ⟨hg, hf, ho, hm⟩
  · have hio : get_index_of m.map id = some p0 := by
      rw [get_index_of_eq_get_full, hg]; rfl
    obtain ⟨hk, hp0⟩ := get_full_eq_some hg
    constructor
    · intro p hp
      rw [hio] at hp
      cases hp
      refine ⟨hl p0 t hf, ?_, ⟨w, hp0, ho, ?_⟩, ?_, ?_⟩
      · unfold RegistryManager.get_ticket_of
        rw [hio]
        simpa using hf
      · rw [hm]
        exact getElem?_replaceAt_self v hp0
      · intro q hq
        rw [hm]
        exact getElem?_replaceAt_ne m.map p0 v q hq
      · simp [RegistryManager.len, hm, length_replaceAt]
    · intro hnone
      rw [hio] at hnone
      cases hnone
  · have hio : get_index_of m.map id = none := by
      rw [get_index_of_eq_get_full, hg]; rfl
    constructor
    · intro p hp
      rw [hio] at hp
      cases hp
    · intro _
      refine ⟨hl m.len t hf, ho, ?_, ?_, ?_⟩
      · rw [hm]
        show (m.map ++ [(id, v)])[m.map.length]? = some (id, v)
        simp
      · intro q hq
        rw [hm]
        have hq2 : q < m.map.length := hq
        simp [List.getElem?_append, hq2]
      · simp [RegistryManager.len, hm]

/-- C1 witness: re-inserting dog→99 into the cat/dog/cow manager succeeds,
returns ticket 1 with replaced value 20, leaves the other entries and the
length unchanged. -/
theorem C1_insert_upsert_witness :
    get_index_of m3.map "dog" = some 1 ∧
    (tiW.to_index 1 = 1 ∧
      RegistryManager.get_ticket_of tiW m3 "dog" = some 1 ∧
      (∃ w, m3.map[1]? = some ("dog", w) ∧ (some 20 : Option Nat) = some w ∧
        m3b.map[1]? = some ("dog", 99)) ∧
      (∀ q, q ≠ 1 → m3b.map[q]? = m3.map[q]?) ∧
      m3b.len = m3.len) :=
  ⟨by decide,
    (C1_insert_upsert tiW (derivedTicketImpl_lawful 16) m3 "dog" 99 1
      (some 20) m3b (by decide)).1 1 (by decide)⟩

/-- C2: when `from_index` applied to the target position (the existing
entry's position if `id` is present, otherwise `len()`) fails, `insert`
returns the failure outcome and leaves the manager exactly as it was. -/
theorem C2_insert_capacity_failure {T Ticket Identifier : Type}
    [DecidableEq Identifier] (ti : TicketImpl Ticket)
    (m : RegistryManager T Ticket Identifier) (id : Identifier) (v : T)
    (hfail : ti.from_index ((get_index_of m.map id).getD m.len) = none) :
    RegistryManager.insert ti m id v = (none, m) := by
  have h1 : (RegistryManager.insert ti m id v).1 = none :=
    (insert_fst_eq_none_iff ti m id v).mpr hfail
  have h2 := insert_snd_of_fail h1
  rw [Prod.ext_iff]
  exact ⟨h1, h2⟩

/-- C2 witness: with a 1-bit ticket type, a third insertion into a two-entry
manager fails and leaves both entries and the length unchanged. -/
theorem C2_insert_capacity_failure_witness :
    tiSmall.from_index ((get_index_of mSmall.map "c").getD mSmall.len) = none ∧
    RegistryManager.insert tiSmall mSmall "c" 3 = (none, mSmall) ∧
    mSmall.len = 2 ∧ mSmall.map = [("a", 1), ("b", 2)] :=
  ⟨by decide,
    C2_insert_capacity_failure tiSmall mSmall "c" 3 (by decide),
    by decide, by decide⟩

/-- The manager holding the single entry cat→10. -/
def mCat : RegistryManager Nat Nat String := ⟨[("cat", 10)]⟩

/-- C3: whenever a ticket's encoded position is below the current count,
`get_ticket` returns the value stored at that position (no panic) and
`get_ticket_full` returns the stored identifier together with that value. -/
theorem C3_ticket_access {T Ticket Identifier : Type} [DecidableEq Identifier]
    (ti : TicketImpl Ticket) (m : RegistryManager T Ticket Identifier)
    (t : Ticket) (ht : ti.to_index t < m.len) :
    ∃ k v, m.map[ti.to_index t]? = some (k, v) ∧
      RegistryManager.get_ticket ti m t = some v ∧
      RegistryManager.get_ticket_full ti m t = some (k, v) := by
  have hlt : ti.to_index t < m.map.length := ht
  have he : m.map[ti.to_index t]? = some (m.map[ti.to_index t]) :=
    List.getElem?_eq_getElem hlt
  refine ⟨(m.map[ti.to_index t]).1, (m.map[ti.to_index t]).2, by simp [he], ?_, ?_⟩
  · simp [RegistryManager.get_ticket, he]
  · simp [RegistryManager.get_ticket_full, he]

/-- C3 witness: the cat/dog/cow scenario. The three insertions return tickets
0, 1, 2; `len()` is 3; applying the theorem to dog's ticket 1 recovers
`get_ticket_full = ("dog", 20)`. -/
theorem C3_ticket_access_witness :
    (RegistryManager.insert tiW RegistryManager.new "cat" 10).1
        = some (0, none) ∧
    (RegistryManager.insert tiW
        ((RegistryManager.insert tiW RegistryManager.new "cat" 10).2)
        "dog" 20).1 = some (1, none) ∧
    (RegistryManager.insert tiW
        ((RegistryManager.insert tiW
          ((RegistryManager.insert tiW RegistryManager.new "cat" 10).2)
          "dog" 20).2)
        "cow" 30).1 = some (2, none) ∧
    m3.len = 3 ∧ tiW.to_index 1 < m3.len ∧
    RegistryManager.get_ticket_full tiW m3 1 = some ("dog", 20) ∧
    RegistryManager.get_ticket tiW m3 1 = some 20 ∧
    (∃ k v, m3.map[tiW.to_index 1]? = some (k, v) ∧
      RegistryManager.get_ticket tiW m3 1 = some v ∧
      RegistryManager.get_ticket_full tiW m3 1 = some (k, v)) :=
  ⟨by decide, by decide, by decide, by decide, by decide, by decide, by decide,
    C3_ticket_access tiW m3 1 (by decide)⟩

/-- C4: the derive-generated implementation for a `w`-bit unsigned wrapper
succeeds on every position below `2 ^ w` and round-trips it through
`to_index`, and fails on every position at or above `2 ^ w`. -/
theorem C4_derived_roundtrip (w p : Nat) :
    (p < 2 ^ w →
      ((derivedTicketImpl w).from_index p).map (derivedTicketImpl w).to_index
        = some p) ∧
    (2 ^ w ≤ p → (derivedTicketImpl w).from_index p = none) := by
  constructor
  · intro h
    simp [derivedTicketImpl, h]
  · intro h
    simp [derivedTicketImpl, Nat.not_lt.mpr h]

/-- C4 witness: with a 1-bit wrapper, position 1 round-trips and position 2
is rejected. -/
theorem C4_derived_roundtrip_witness :
    ((derivedTicketImpl 1).from_index 1).map (derivedTicketImpl 1).to_index
        = some 1 ∧
    (derivedTicketImpl 1).from_index 2 = none :=
  ⟨(C4_derived_roundtrip 1 1).1 (by decide),
    (C4_derived_roundtrip 1 2).2 (by decide)⟩

/-- C5: `can_insert` is true exactly when `from_index(len())` succeeds; for
any identifier not yet present (so that the next insertion would target
position `len()`), insertion succeeds exactly when `can_insert` is true.
(`can_insert` takes the manager immutably, so non-mutation holds by
construction in the embedding, as in the source.) -/
theorem C5_can_insert {T Ticket Identifier : Type} [DecidableEq Identifier]
    (ti : TicketImpl Ticket) (m : RegistryManager T Ticket Identifier) :
    (RegistryManager.can_insert ti m = true ↔
      (ti.from_index m.len).isSome = true) ∧
    (∀ id v, get_index_of m.map id = none →
      ((RegistryManager.insert ti m id v).1.isSome = true ↔
        RegistryManager.can_insert ti m = true)) := by
  refine ⟨Iff.rfl, ?_⟩
  intro id v hfresh
  have hg : get_full m.map id = none := by
    rw [get_index_of_eq_get_full] at hfresh
    cases hgf : get_full m.map id
    · rfl
    · rw [hgf] at hfresh; simp at hfresh
  cases hf : ti.from_index m.len with
  | none => simp [RegistryManager.insert, RegistryManager.can_insert, hg, hf]
  | some t => simp [RegistryManager.insert, RegistryManager.can_insert, hg, hf]

/-- C5 witness: on the exhausted 1-bit manager, `can_insert` is false and a
fresh insertion fails accordingly. -/
theorem C5_can_insert_witness :
    (RegistryManager.can_insert tiSmall mSmall = true ↔
      (tiSmall.from_index mSmall.len).isSome = true) ∧
    ((RegistryManager.insert tiSmall mSmall "c" 3).1.isSome = true ↔
      RegistryManager.can_insert tiSmall mSmall = true) ∧
    RegistryManager.can_insert tiSmall mSmall = false :=
  ⟨(C5_can_insert tiSmall mSmall).1,
    (C5_can_insert tiSmall mSmall).2 "c" 3 (by decide),
    by decide⟩

/-- C6: after a successful insert of `id` returning ticket `t`,
`get_ticket_of id` returns `t`, and still does so after any further
insertions under other identifiers; for an absent identifier both
`get_ticket_of` and `get_id` return nothing. -/
theorem C6_get_ticket_of_stable {T Ticket Identifier : Type}
    [DecidableEq Identifier] (ti : TicketImpl Ticket)
    (m : RegistryManager T Ticket Identifier) (id : Identifier) (v : T)
    (t : Ticket) (old : Option T) (m' : RegistryManager T Ticket Identifier)
    (h : RegistryManager.insert ti m id v = (some (t, old), m')) :
    RegistryManager.get_ticket_of ti m' id = some t ∧
    (∀ ops : List (Identifier × T), (∀ e ∈ ops, e.1 ≠ id) →
      RegistryManager.get_ticket_of ti (RegistryManager.insertAll ti m' ops) id
        = some t) ∧
    (∀ (m2 : RegistryManager T Ticket Identifier) (id2 : Identifier),
      RegistryManager.contains_id m2 id2 = false →
      RegistryManager.get_ticket_of ti m2 id2 = none ∧
      RegistryManager.get_id m2 id2 = none) := by
  have h1 := get_ticket_of_insert_self h
  refine ⟨h1, ?_, ?_⟩
  · intro ops hops
    rw [get_ticket_of_insertAll_other ti m' ops id hops, h1]
  · intro m2 id2 hab
    have hg : get_full m2.map id2 = none := by
      unfold RegistryManager.contains_id at hab
      cases hgf : get_full m2.map id2
      · rfl
      · rw [hgf] at hab; simp at hab
    constructor
    · unfold RegistryManager.get_ticket_of
      rw [get_index_of_eq_get_full, hg]
      rfl
    · unfold RegistryManager.get_id
      rw [hg]
      rfl

/-- C6 witness: inserting cat→10 into an empty manager returns ticket 0;
`get_ticket_of` recovers it, also after inserting dog and cow on top, and
`get_ticket_of` / `get_id` on "missing" return nothing. -/
theorem C6_get_ticket_of_stable_witness :
    RegistryManager.get_ticket_of tiW mCat "cat" = some 0 ∧
    (∀ ops : List (String × Nat), (∀ e ∈ ops, e.1 ≠ "cat") →
      RegistryManager.get_ticket_of tiW (RegistryManager.insertAll tiW mCat ops)
        "cat" = some 0) ∧
    (∀ (m2 : RegistryManager Nat Nat String) (id2 : String),
      RegistryManager.contains_id m2 id2 = false →
      RegistryManager.get_ticket_of tiW m2 id2 = none ∧
      RegistryManager.get_id m2 id2 = none) :=
  C6_get_ticket_of_stable tiW RegistryManager.new "cat" 10 0 none mCat
    (by decide)

/-- C7: over a manager whose occupied positions are all representable (the
case for every manager populated through the public API) and a lawful ticket
implementation, forward collection of the adapter yields exactly one
`(ticket, identifier, value)` triple per stored entry, in insertion order,
each ticket projecting to the entry's position; and the forward collection
reversed equals the backward collection. The mutable adapter has a textually
identical implementation, so the one embedding covers both. -/
theorem C7_iteration_order {T Ticket Identifier : Type} [DecidableEq Identifier]
    (ti : TicketImpl Ticket) (hl : ti.Lawful)
    (m : RegistryManager T Ticket Identifier) (hv : ValidPositions ti m) :
    ∃ L, collectFwdAux ti (iterOf m).elems (iterOf m).front = some L ∧
      L.length = m.len ∧
      (∀ i, i < m.len → ∃ t3 k3 v3, L[i]? = some (t3, k3, v3) ∧
        m.map[i]? = some (k3, v3) ∧ ti.to_index t3 = i) ∧
      collectBwdAux ti ((iterOf m).elems).reverse (iterOf m).front
        = some L.reverse := by
  obtain ⟨L, h1, h2, h3⟩ := collectFwdAux_spec ti m.map 0
    (fun i hi => by simpa using hv i hi)
  refine ⟨L, by simpa [iterOf] using h1, h2, ?_, ?_⟩
  · intro i hi
    obtain ⟨t3, k3, v3, ha, hb, hc⟩ := h3 i hi
    refine ⟨t3, k3, v3, ha, hb, ?_⟩
    have := hl (0 + i) t3 hc
    simpa using this
  · show collectBwdAux ti m.map.reverse 0 = some L.reverse
    rw [collectBwdAux_reverse, h1]
    rfl

/-- C7 witness: the cat/dog/cow manager iterates as
`[(0, cat, 10), (1, dog, 20), (2, cow, 30)]` forward, and backward as the
reverse of that. -/
theorem C7_iteration_order_witness :
    ValidPositions tiW m3 ∧
    (∃ L, collectFwdAux tiW (iterOf m3).elems (iterOf m3).front = some L ∧
      L.length = m3.len ∧
      (∀ i, i < m3.len → ∃ t3 k3 v3, L[i]? = some (t3, k3, v3) ∧
        m3.map[i]? = some (k3, v3) ∧ tiW.to_index t3 = i) ∧
      collectBwdAux tiW ((iterOf m3).elems).reverse (iterOf m3).front
        = some L.reverse) := by
  have hv : ValidPositions tiW m3 := by
    have hlen : m3.len = 3 := by decide
    intro p hp
    rw [hlen] at hp
    interval_cases p <;> decide
  exact ⟨hv, C7_iteration_order tiW (derivedTicketImpl_lawful 16) m3 hv⟩

/-- C8: for every manager reachable through `insert` from `new`, every
occupied position is representable (insertion validates the position first
and `from_index` is a function, hence deterministic); consequently the
iterator's `map_next` unwrap cannot panic on any stored entry, forward
collection never panics, and `get_id_full` / `get_id_full_mut` return a
result exactly when the identifier is present. -/
theorem C8_reachable_safety {T Ticket Identifier : Type} [DecidableEq Identifier]
    (ti : TicketImpl Ticket) (m : RegistryManager T Ticket Identifier)
    (h : Reachable ti m) :
    (∀ p, p < m.len → (ti.from_index p).isSome = true) ∧
    (∀ i e, m.map[i]? = some e → (map_next ti (i, e)).isSome = true) ∧
    (collectFwdAux ti (iterOf m).elems (iterOf m).front).isSome = true ∧
    (∀ id, (RegistryManager.get_id_full ti m id).isSome = true ↔
      RegistryManager.contains_id m id = true) ∧
    (∀ id, (RegistryManager.get_id_full_mut ti m id).isSome = true ↔
      RegistryManager.contains_id m id = true) := by
  have hv := reachable_validPositions h
  have hfull : ∀ id, ((get_full m.map id).bind
      (fun r => (ti.from_index r.1).map (fun t => (t, r.2.1, r.2.2)))).isSome
        = (get_full m.map id).isSome := by
    intro id
    cases hg : get_full m.map id with
    | none => rfl
    | some r =>
      obtain ⟨p, k, v⟩ := r
      have hp : p < m.map.length :=
        (List.getElem?_eq_some.mp (get_full_eq_some hg).2).1
      obtain ⟨t, htt⟩ := Option.isSome_iff_exists.mp (hv p hp)
      simp [htt]
  refine ⟨hv, ?_, ?_, ?_, ?_⟩
  · intro i e he
    have hi : i < m.map.length := (List.getElem?_eq_some.mp he).1
    obtain ⟨t, htt⟩ := Option.isSome_iff_exists.mp (hv i hi)
    simp [map_next, htt]
  · obtain ⟨L, h1, _, _⟩ := collectFwdAux_spec ti m.map 0
      (fun i hi => by simpa using hv i hi)
    show (collectFwdAux ti m.map 0).isSome = true
    simp [h1]
  · intro id
    show ((get_full m.map id).bind _).isSome = true ↔ _
    rw [hfull id]
    exact Iff.rfl
  · intro id
    show ((get_full m.map id).bind _).isSome = true ↔ _
    rw [hfull id]
    exact Iff.rfl

/-- C8 witness: `m3` is reachable by three successful insertions; hence its
three positions are representable, iteration cannot panic, and `get_id_full`
answers exactly for cat, dog, cow. -/
theorem C8_reachable_safety_witness :
    (∀ p, p < m3.len → (tiW.from_index p).isSome = true) ∧
    (∀ i e, m3.map[i]? = some e → (map_next tiW (i, e)).isSome = true) ∧
    (collectFwdAux tiW (iterOf m3).elems (iterOf m3).front).isSome = true ∧
    (∀ id, (RegistryManager.get_id_full tiW m3 id).isSome = true ↔
      RegistryManager.contains_id m3 id = true) ∧
    (∀ id, (RegistryManager.get_id_full_mut tiW m3 id).isSome = true ↔
      RegistryManager.contains_id m3 id = true) :=
  C8_reachable_safety tiW m3
    (Reachable.insert ⟨[("cat", 10), ("dog", 20)]⟩ "cow" 30 (2, none) m3
      (Reachable.insert ⟨[("cat", 10)]⟩ "dog" 20 (1, none)
          ⟨[("cat", 10), ("dog", 20)]⟩
        (Reachable.insert RegistryManager.new "cat" 10 (0, none) ⟨[("cat", 10)]⟩
          Reachable.new (by decide))
        (by decide))
      (by decide))

/-- C9 counterexample: on a one-element adapter (1-bit-safe positions, no
panics involved), `nth(1)` overshoots and leaves the enumerate counter at 0,
while one `next` followed by `next` leaves it at 1 — the two calls do not
leave the adapter in the same state, refuting the claim as stated. -/
theorem C9_counterexample_state :
    ¬ (Iter.nth tiW (⟨[("a", 1)], 0⟩ : IterState Nat String) 1
        = Iter.next tiW (nextN tiW 1 (⟨[("a", 1)], 0⟩ : IterState Nat String))) := by
  decide

/-- C9 (amended): over an adapter all of whose remaining positions are
representable, `nth(n)` yields the same element as `n` `next` calls followed
by one `next`, and when an element is yielded (`n` below the remaining
length) it also leaves the adapter in the identical state; when the skip
overshoots, both ways leave the adapter exhausted (same remaining-element
list, namely empty), differing at most in the unobservable enumerate
counter. `nth_back(n)` is unconditionally equivalent — same result and same
state — to `n` `next_back` calls followed by one `next_back`. -/
theorem C9_skip_equivalence {T Ticket Identifier : Type}
    (ti : TicketImpl Ticket) (s : IterState T Identifier) (n : Nat)
    (hv : ∀ i, i < s.elems.length → (ti.from_index (s.front + i)).isSome = true) :
    (Iter.nth ti s n).1 = (Iter.next ti (nextN ti n s)).1 ∧
    (Iter.nth ti s n).2.elems = (Iter.next ti (nextN ti n s)).2.elems ∧
    (n < s.elems.length → Iter.nth ti s n = Iter.next ti (nextN ti n s)) ∧
    Iter.nth_back ti s n = Iter.next_back ti (nextBackN ti n s) := by
  obtain ⟨elems, front⟩ := s
  dsimp only at hv ⊢
  have hback : Iter.nth_back ti (⟨elems, front⟩ : IterState T Identifier) n
      = Iter.next_back ti (nextBackN ti n ⟨elems, front⟩) := by
    by_cases hbn : n < elems.length
    · have htake := nextBackN_eq_take ti n ⟨elems, front⟩ (le_of_lt hbn) hv
      have hj : elems.length - 1 - n < elems.length := by omega
      obtain ⟨e, hget⟩ : ∃ e, elems[elems.length - 1 - n]? = some e :=
        ⟨_, List.getElem?_eq_getElem hj⟩
      obtain ⟨t, htt⟩ := Option.isSome_iff_exists.mp (hv (elems.length - 1 - n) hj)
      have hnthb : Iter.nth_back ti (⟨elems, front⟩ : IterState T Identifier) n
          = (.yield (t, e.1, e.2),
              ⟨elems.take (elems.length - 1 - n), front⟩) := by
        simp [Iter.nth_back, hget, hbn, map_next, htt]
      have hlen_take : (elems.take (elems.length - n)).length
          = elems.length - n := by
        rw [List.length_take, Nat.min_eq_left (by omega)]
      have hgl : (elems.take (elems.length - n)).getLast? = some e := by
        rw [List.getLast?_eq_getElem? _, hlen_take,
          List.getElem?_take_of_lt (by omega),
          show elems.length - n - 1 = elems.length - 1 - n by omega]
        exact hget
      have htt2 : ti.from_index (front + (elems.length - n - 1)) = some t := by
        rw [show elems.length - n - 1 = elems.length - 1 - n by omega]
        exact htt
      have hnb : Iter.next_back ti
          (⟨elems.take (elems.length - n), front⟩ : IterState T Identifier)
          = (.yield (t, e.1, e.2),
              ⟨(elems.take (elems.length - n)).dropLast, front⟩) := by
        simp [Iter.next_back, hgl, hlen_take, map_next, htt2]
      have hdl : (elems.take (elems.length - n)).dropLast
          = elems.take (elems.length - 1 - n) := by
        rw [List.dropLast_eq_take, hlen_take, List.take_take,
          Nat.min_eq_left (by omega),
          show elems.length - n - 1 = elems.length - 1 - n by omega]
      rw [htake, hnthb, hnb, hdl]
    · have hnL : elems.length ≤ n := le_of_not_lt hbn
      have h1 : nextBackN ti elems.length
          (⟨elems, front⟩ : IterState T Identifier) = ⟨[], front⟩ := by
        have := nextBackN_eq_take ti elems.length ⟨elems, front⟩ le_rfl hv
        simpa using this
      have h2 : nextBackN ti n (⟨elems, front⟩ : IterState T Identifier)
          = ⟨[], front⟩ := by
        rw [show n = elems.length + (n - elems.length) by omega,
          nextBackN_add, h1, nextBackN_exhausted]
      have hnthb : Iter.nth_back ti (⟨elems, front⟩ : IterState T Identifier) n
          = (.done, ⟨[], front⟩) := by
        cases helms : elems[elems.length - 1 - n]? with
        | none => simp [Iter.nth_back, helms]
        | some e2 => simp [Iter.nth_back, helms, hbn]
      rw [hnthb, h2]
      rfl
  by_cases hn : n < elems.length
  · have hdropN := nextN_eq_drop ti n ⟨elems, front⟩ (le_of_lt hn)
      (fun i hi => hv i (lt_trans hi hn))
    have hget : elems[n]? = some elems[n] := List.getElem?_eq_getElem hn
    obtain ⟨t, htt⟩ := Option.isSome_iff_exists.mp (hv n hn)
    have hnth : Iter.nth ti (⟨elems, front⟩ : IterState T Identifier) n
        = (.yield (t, elems[n].1, elems[n].2),
            ⟨elems.drop (n + 1), front + n + 1⟩) := by
      simp [Iter.nth, hget, map_next, htt]
    have hmn : map_next ti (front + n, elems[n]) =
        some (t, elems[n].1, elems[n].2) := by
      simp [map_next, htt]
    have hnext : Iter.next ti
        (⟨elems.drop n, front + n⟩ : IterState T Identifier)
        = (.yield (t, elems[n].1, elems[n].2),
            ⟨elems.drop (n + 1), front + n + 1⟩) := by
      unfold Iter.next
      dsimp only
      rw [List.drop_eq_getElem_cons hn]
      dsimp only
      rw [hmn]
    refine ⟨?_, ?_, ?_, hback⟩
    · rw [hnth, hdropN, hnext]
    · rw [hnth, hdropN, hnext]
    · intro _
      rw [hnth, hdropN, hnext]
  · have hnL : elems.length ≤ n := le_of_not_lt hn
    have h1 : nextN ti elems.length (⟨elems, front⟩ : IterState T Identifier)
        = ⟨[], front + elems.length⟩ := by
      have := nextN_eq_drop ti elems.length ⟨elems, front⟩ le_rfl
        (fun i hi => hv i hi)
      simpa [List.drop_length] using this
    have h2 : nextN ti n (⟨elems, front⟩ : IterState T Identifier)
        = ⟨[], front + elems.length⟩ := by
      rw [show n = elems.length + (n - elems.length) by omega,
        nextN_add, h1, nextN_exhausted]
    have hq : elems[n]? = none := List.getElem?_eq_none hnL
    have hnth : Iter.nth ti (⟨elems, front⟩ : IterState T Identifier) n
        = (.done, ⟨[], front⟩) := by
      unfold Iter.nth
      dsimp only
      rw [hq]
    refine ⟨?_, ?_, ?_, hback⟩
    · rw [hnth, h2]; rfl
    · rw [hnth, h2]; rfl
    · intro hc; exact absurd hc hn

/-- C9 witness: on a two-element adapter, `nth(0)` agrees with plain `next`
in result and state, and `nth_back(1)` agrees with two `next_back`
advances. -/
theorem C9_skip_equivalence_witness :
    ((Iter.nth tiW (⟨[("a", 1), ("b", 2)], 0⟩ : IterState Nat String) 0).1
      = (Iter.next tiW (nextN tiW 0 ⟨[("a", 1), ("b", 2)], 0⟩)).1 ∧
    (Iter.nth tiW (⟨[("a", 1), ("b", 2)], 0⟩ : IterState Nat String) 0).2.elems
      = (Iter.next tiW (nextN tiW 0 ⟨[("a", 1), ("b", 2)], 0⟩)).2.elems ∧
    (0 < (2 : Nat) →
      Iter.nth tiW (⟨[("a", 1), ("b", 2)], 0⟩ : IterState Nat String) 0
        = Iter.next tiW (nextN tiW 0 ⟨[("a", 1), ("b", 2)], 0⟩)) ∧
    Iter.nth_back tiW (⟨[("a", 1), ("b", 2)], 0⟩ : IterState Nat String) 0
      = Iter.next_back tiW (nextBackN tiW 0 ⟨[("a", 1), ("b", 2)], 0⟩)) ∧
    Iter.nth_back tiW (⟨[("a", 1), ("b", 2)], 0⟩ : IterState Nat String) 1
      = Iter.next_back tiW (nextBackN tiW 1 ⟨[("a", 1), ("b", 2)], 0⟩) :=
  ⟨C9_skip_equivalence tiW ⟨[("a", 1), ("b", 2)], 0⟩ 0
      (by intro i hi; have h2 : i < 2 := by simpa using hi
          interval_cases i <;> decide),
    (C9_skip_equivalence tiW ⟨[("a", 1), ("b", 2)], 0⟩ 1
      (by intro i hi; have h2 : i < 2 := by simpa using hi
          interval_cases i <;> decide)).2.2.2⟩

/-- C10: an advancing call that reports exhaustion leaves the adapter with no
remaining elements, and an adapter with no remaining elements reports
exhaustion — unchanged — on every advancing call in either direction
(`next`, `next_back`, `nth`, `nth_back`); hence once exhaustion is reported
all subsequent calls report it too. The mutable adapter shares the
embedding. -/
theorem C10_fused_exhaustion {T Ticket Identifier : Type}
    (ti : TicketImpl Ticket) (s : IterState T Identifier) :
    ((Iter.next ti s).1 = .done → (Iter.next ti s).2.elems = []) ∧
    ((Iter.next_back ti s).1 = .done → (Iter.next_back ti s).2.elems = []) ∧
    (∀ n, (Iter.nth ti s n).1 = .done → (Iter.nth ti s n).2.elems = []) ∧
    (∀ n, (Iter.nth_back ti s n).1 = .done → (Iter.nth_back ti s n).2.elems = []) ∧
    (s.elems = [] →
      (Iter.next ti s).1 = .done ∧ (Iter.next ti s).2 = s ∧
      (Iter.next_back ti s).1 = .done ∧ (Iter.next_back ti s).2 = s ∧
      (∀ n, (Iter.nth ti s n).1 = .done ∧ (Iter.nth ti s n).2 = s) ∧
      (∀ n, (Iter.nth_back ti s n).1 = .done ∧ (Iter.nth_back ti s n).2 = s)) := by
  obtain ⟨elems, front⟩ := s
  cases elems with
  | nil =>
    refine ⟨fun _ => rfl, fun _ => rfl, fun n _ => rfl, fun n _ => rfl, fun _ => ?_⟩
    exact ⟨rfl, rfl, rfl, rfl, fun n => ⟨rfl, rfl⟩, fun n => ⟨rfl, rfl⟩⟩
  | cons e rest =>
    refine ⟨?_, ?_, ?_, ?_, fun hc => by cases hc⟩
    · cases hm : map_next ti (front, e) <;> simp [Iter.next, hm]
    · have hgl : ((e :: rest).getLast? ).isSome = true := by
        rw [List.getLast?_eq_getLast (e :: rest) (by simp)]; rfl
      obtain ⟨e2, hgl2⟩ := Option.isSome_iff_exists.mp hgl
      cases hm : map_next ti (front + rest.length, e2) <;>
        simp [Iter.next_back, hgl2, hm]
    · intro n
      cases hq : (e :: rest)[n]? with
      | none => intro _; simp [Iter.nth, hq]
      | some e2 =>
        cases hm : map_next ti (front + n, e2) <;> simp [Iter.nth, hq, hm]
    · intro n
      cases hq : (e :: rest)[rest.length - n]? with
      | none => intro _; simp [Iter.nth_back, hq]
      | some e2 =>
        by_cases hn : n < rest.length + 1
        · cases hm : map_next ti (front + (rest.length - n), e2) <;>
            simp [Iter.nth_back, hq, hn, hm]
        · intro _
          simp [Iter.nth_back, hq, hn]

/-- C10 witness: `nth(1)` on a one-element adapter reports exhaustion and
leaves no elements; on the resulting empty adapter every advancing call, in
both directions, keeps reporting exhaustion without changing the state. -/
theorem C10_fused_exhaustion_witness :
    (Iter.nth tiW (⟨[("a", 1)], 0⟩ : IterState Nat String) 1).2.elems = [] ∧
    ((Iter.next tiW (⟨[], 0⟩ : IterState Nat String)).1 = .done ∧
      (Iter.next tiW (⟨[], 0⟩ : IterState Nat String)).2 = ⟨[], 0⟩ ∧
      (Iter.next_back tiW (⟨[], 0⟩ : IterState Nat String)).1 = .done ∧
      (Iter.next_back tiW (⟨[], 0⟩ : IterState Nat String)).2 = ⟨[], 0⟩ ∧
      (∀ n, (Iter.nth tiW (⟨[], 0⟩ : IterState Nat String) n).1 = .done ∧
        (Iter.nth tiW (⟨[], 0⟩ : IterState Nat String) n).2 = ⟨[], 0⟩) ∧
      (∀ n, (Iter.nth_back tiW (⟨[], 0⟩ : IterState Nat String) n).1 = .done ∧
        (Iter.nth_back tiW (⟨[], 0⟩ : IterState Nat String) n).2 = ⟨[], 0⟩)) :=
  ⟨(C10_fused_exhaustion tiW ⟨[("a", 1)], 0⟩).2.2.1 1 (by decide),
    (C10_fused_exhaustion tiW ⟨[], 0⟩).2.2.2.2 rfl⟩

end RTM
